import Mathlib

/-!
# Verification of the deadfish encoder core

A shallow embedding of the deadfish library (`value.rs`, `inst.rs`,
`builder.rs`, `heuristic.rs`, `bfs.rs`) together with proofs and refutations
of the specified properties.

Machine integers are modelled as `Nat` with explicit reduction modulo `2 ^ 32`
where the Rust code relies on wrapping semantics (release-mode behaviour).
`u32` saturating operations are modelled with `min`/`Nat` truncated
subtraction.  The `f64` square root used by `Value::nearest_sqrt` is exact on
`u32` inputs (every `u32` is exactly representable in `f64` and the correctly
rounded square root of a non-square never rounds across an integer at these
magnitudes), so it is modelled by the integer square root.
-/

set_option maxRecDepth 10000

/-- The `u32` modulus `2 ^ 32`. -/
def U32 : Nat := 4294967296

/-- `u32::MAX`, the all-ones pattern (signed `-1`). -/
def U32MAX : Nat := 4294967295

/-- `normalize` (renamed `normalizeU32`, the name clashes with Mathlib) from `value.rs`: magnitudes `256` and `u32::MAX` reset to 0. -/
def normalizeU32 (n : Nat) : Nat :=
  if n = 256 ∨ n = U32MAX then 0 else n

/-- `Value` from `value.rs`: the accumulator, an unsigned 32-bit magnitude. -/
structure Value where
  val : Nat
deriving DecidableEq

/-- The representation invariant of `Value`: a `u32` magnitude that is neither
`256` nor the all-ones pattern. -/
def Value.Valid (v : Value) : Prop :=
  v.val < U32 ∧ v.val ≠ 256 ∧ v.val ≠ U32MAX

instance (v : Value) : Decidable v.Valid := by
  unfold Value.Valid; infer_instance

/-- `Value::new()`. -/
def Value.new : Value := ⟨0⟩

/-- `impl From<u32> for Value`: normalize the raw magnitude.  The `% U32`
makes the Lean function total on `Nat`; a Rust `u32` argument is already
reduced. -/
def Value.fromU32 (n : Nat) : Value := ⟨normalizeU32 (n % U32)⟩

/-- `Value::from_checked`. -/
def Value.fromChecked (n : Nat) : Option Value :=
  if n % U32 = normalizeU32 (n % U32) then some ⟨n % U32⟩ else none

/-- `Offset` from `value.rs`: a signed 64-bit distance (the `i64` never
overflows in the library, so it is modelled by `Int`). -/
structure Offset where
  val : Int
deriving DecidableEq

/-- `Offset::abs`: `unsigned_abs` converted to `u32`, saturating at
`u32::MAX` (`try_into().unwrap_or(u32::MAX)`). -/
def Offset.abs (o : Offset) : Nat := min o.val.natAbs U32MAX

/-- `Offset::len`. -/
def Offset.len (o : Offset) : Nat := o.abs

/-- `Offset::is_negative`. -/
def Offset.isNegative (o : Offset) : Bool := o.val < 0

/-- `Inst` from `inst.rs`. -/
inductive Inst where
  | I
  | D
  | S
  | O
  | Blank
deriving DecidableEq

/-- `Value::increment`: wrapping add 1, then normalize. -/
def Value.increment (v : Value) : Value := Value.fromU32 ((v.val + 1) % U32)

/-- `Value::decrement`: wrapping subtract 1, then normalize. -/
def Value.decrement (v : Value) : Value :=
  Value.fromU32 ((v.val + (U32 - 1)) % U32)

/-- `Value::square`: wrapping multiply by itself, then normalize. -/
def Value.square (v : Value) : Value := Value.fromU32 ((v.val * v.val) % U32)

/-- `Value::apply`: `i`, `d`, `s` mutate the accumulator, `o` and blanks are
the identity. -/
def Value.apply (v : Value) (inst : Inst) : Value :=
  match inst with
  | .I => v.increment
  | .D => v.decrement
  | .S => v.square
  | _ => v

/-- `Inst::eval`: fold `apply` over an instruction sequence. -/
def Inst.eval (insts : List Inst) (acc : Value) : Value :=
  insts.foldl Value.apply acc

/-- `Value::saturating_add` (`value.rs`): saturating `u32` add with the two
boundary adjustments. -/
def Value.saturatingAdd (v : Value) (rhs : Nat) : Value :=
  let add := min (v.val + rhs) U32MAX
  if v.val < 256 ∧ 256 ≤ add then ⟨255⟩
  else if add = U32MAX then ⟨U32MAX - 1⟩
  else ⟨add⟩

/-- `Value::saturating_sub` (`value.rs`). -/
def Value.saturatingSub (v : Value) (rhs : Nat) : Value :=
  let sub := v.val - rhs
  if 256 < v.val ∧ sub ≤ 256 then ⟨257⟩
  else if sub = 0 ∧ v.val ≠ 0 then ⟨1⟩
  else ⟨sub⟩

/-- `impl Add<u32> for Value`: saturating add, collapsing to zero when the
sum crosses the 256 threshold from below or lands on the all-ones pattern. -/
def Value.addU32 (v : Value) (rhs : Nat) : Value :=
  let add := min (v.val + rhs) U32MAX
  if (v.val < 256 ∧ 256 ≤ add) ∨ add = U32MAX then ⟨0⟩ else ⟨add⟩

/-- `impl Sub<u32> for Value`: saturating subtract, collapsing to zero when
the difference crosses the 256 threshold from above. -/
def Value.subU32 (v : Value) (rhs : Nat) : Value :=
  let sub := v.val - rhs
  if 256 < v.val ∧ sub ≤ 256 then ⟨0⟩ else ⟨sub⟩

/-- `impl Add<Offset> for Value`: dispatch on the sign of the offset. -/
def Value.addOffset (v : Value) (o : Offset) : Value :=
  if 0 ≤ o.val then v.addU32 o.abs else v.subU32 o.abs

/-- `Value::square_repeat` loop body: square-and-normalize, stopping early
once the value collapses to zero. -/
def sqRepAux : Nat → Nat → Nat
  | 0, n => n
  | c + 1, n =>
    let m := normalizeU32 (n * n % U32)
    if m = 0 then 0 else sqRepAux c m

/-- `Value::square_repeat`. -/
def Value.squareRepeat (v : Value) (count : Nat) : Value := ⟨sqRepAux count v.val⟩

/-- `Value::offset_to`: the signed distance, defined only when both values
are on the same side of the 256 threshold. -/
def Value.offsetTo (a b : Value) : Option Offset :=
  if (decide (a.val < 256)) = (decide (b.val < 256)) then
    some ⟨(b.val : Int) - (a.val : Int)⟩
  else none

/-- One step of a greedy bitwise integer square root: try to set bit `b`. -/
def isqrtGo (n : Nat) : Nat → Nat → Nat
  | 0, r => r
  | b + 1, r =>
    let r1 := r + 2 ^ b
    isqrtGo n b (if r1 * r1 ≤ n then r1 else r)

/-- Integer square root of a `u32`, modelling `(x as f64).sqrt().floor()`
(exact on `u32` inputs, see the header comment). -/
def u32Sqrt (n : Nat) : Nat := isqrtGo n 16 0

/-- `ceil` of the `f64` square root: the floor, plus one on non-squares. -/
def u32SqrtCeil (n : Nat) : Nat :=
  let f := u32Sqrt n
  if f * f = n then f else f + 1

/-- `u32::trailing_zeros`, fuel-indexed helper: `tzAux 32 0 = 32`. -/
def tzAux : Nat → Nat → Nat
  | 0, _ => 0
  | f + 1, n => if n % 2 = 1 then 0 else tzAux f (n / 2) + 1

/-- `u32::trailing_zeros` on a `u32` magnitude. -/
def trailingZeros32 (n : Nat) : Nat := tzAux 32 n

/-- Fuel-indexed base-2 logarithm used by `leadingZeros32`. -/
def log2Aux : Nat → Nat → Nat
  | 0, _ => 0
  | f + 1, n => if 2 ≤ n then log2Aux f (n / 2) + 1 else 0

/-- `u32::leading_zeros` on a `u32` magnitude. -/
def leadingZeros32 (n : Nat) : Nat :=
  if n = 0 then 32 else 32 - (log2Aux 32 n + 1)

/-- `Value::nearest_sqrt`: the square root whose square is closest to the
value, avoiding the roots 16 and 65536, with the signed correction offset.
The `ceil * ceil` multiplication and the following subtraction are wrapping
`u32` arithmetic (they do overflow for values above `65535 * 65535`). -/
def Value.nearestSqrt (v : Value) : Value × Offset :=
  let floor := u32Sqrt v.val
  let ceil := u32SqrtCeil v.val
  let floorDiff := v.val - floor * floor
  let ceilSq := ceil * ceil % U32
  let ceilDiff := (ceilSq + (U32 - v.val % U32)) % U32
  if (floorDiff < ceilDiff ∧ floor ≠ 16) ∨ ceil = 16 ∨ ceil = 65536 then
    (⟨floor⟩, ⟨(floorDiff : Int)⟩)
  else
    (⟨ceil⟩, ⟨-(ceilDiff : Int)⟩)

/-- `Builder` from `builder.rs`: the instruction buffer plus the tracked
accumulator. -/
structure Builder where
  insts : List Inst
  acc : Value
deriving DecidableEq

/-- `Builder::new`. -/
def Builder.new (acc : Value) : Builder := ⟨[], acc⟩

/-- `Builder::from_insts`. -/
def Builder.fromInsts (insts : List Inst) (acc : Value) : Builder := ⟨insts, acc⟩

/-- `Builder::push`: append one instruction and advance the accumulator by
`apply`. -/
def Builder.push (b : Builder) (inst : Inst) : Builder :=
  ⟨b.insts ++ [inst], b.acc.apply inst⟩

/-- `Builder::add`: append `x` `i` instructions, advance the accumulator with
the O(1) `Add<u32>` operator. -/
def Builder.add (b : Builder) (x : Nat) : Builder :=
  ⟨b.insts ++ List.replicate x Inst.I, b.acc.addU32 x⟩

/-- `Builder::sub`: append `x` `d` instructions, advance the accumulator with
the O(1) `Sub<u32>` operator. -/
def Builder.sub (b : Builder) (x : Nat) : Builder :=
  ⟨b.insts ++ List.replicate x Inst.D, b.acc.subU32 x⟩

/-- `Builder::offset`: dispatch to `add`/`sub` on the offset sign. -/
def Builder.offset (b : Builder) (o : Offset) : Builder :=
  if o.isNegative then b.sub o.abs else b.add o.abs

/-- `Builder::square`: append `count` `s` instructions, advance with
`square_repeat`. -/
def Builder.square (b : Builder) (count : Nat) : Builder :=
  ⟨b.insts ++ List.replicate count Inst.S, b.acc.squareRepeat count⟩

/-- `Builder::offset_squares`: interleave the offset list with squarings. -/
def Builder.offsetSquares (b : Builder) (offsets : List Offset) : Builder :=
  match offsets with
  | [] => b
  | first :: rest => rest.foldl (fun b o => (b.push Inst.S).offset o) (b.offset first)

/-- Band constant `LOW_16 = (4 + 16) / 2` from `heuristic.rs`. -/
def LOW16 : Nat := 10

/-- Band constant `LOW_256 = (16 + 256) / 2` from `heuristic.rs`. -/
def LOW256 : Nat := 136

/-- Band constant `LOW_NEG = u32::MAX / 2 + 256 / 2` from `heuristic.rs`. -/
def LOWNEG : Nat := 2147483775

/-- `encode_to_0_no_overflow`: map the value to its anchor band and return
the offset to the band anchor together with the square count. -/
def encodeTo0NoOverflow (v : Value) : Offset × Nat :=
  let ts : Nat × Nat :=
    if v.val < 4 then (0, 0)
    else if v.val < LOW16 then (4, 2)
    else if v.val < LOW256 then (16, 1)
    else if v.val < LOWNEG then (256, 0)
    else (U32MAX, 0)
  (⟨(ts.1 : Int) - (v.val : Int)⟩, ts.2)

/-- `encode_to_0_overflow`: raise the trailing-zero count with a small
corrective offset, then square until 32 trailing zeros force zero. -/
def encodeTo0Overflow (v : Value) : Offset × Nat :=
  let v0 := v.val
  let tz0 := trailingZeros32 v0
  let offset : Offset :=
    if tz0 < 2 then
      if tz0 = 1 then
        if v0 % 16 = 14 then ⟨2⟩
        else if v0 % 16 = 2 then ⟨-2⟩
        else ⟨0⟩
      else
        if v0 % 256 = 253 then ⟨3⟩
        else if v0 % 256 = 3 then ⟨-3⟩
        else ⟨(v0 % 4 : Int) - 2⟩
    else ⟨0⟩
  let v1 := if tz0 < 2 then (Value.addOffset ⟨v0⟩ offset).val else v0
  let tz1 := if tz0 < 2 then trailingZeros32 v1 else tz0
  let squares :=
    if v1 * v1 % U32 = 256 then 1
    else leadingZeros32 tz1 - leadingZeros32 32
  (offset, squares)

/-- `encode_to_0`: the cheaper of the two strategies, ties broken towards
fewer squares (the band strategy). -/
def encodeTo0 (v : Value) : Offset × Nat :=
  let os1 := encodeTo0NoOverflow v
  let os2 := encodeTo0Overflow v
  let len1 := os1.1.abs + os1.2
  let len2 := os2.1.abs + os2.2
  if len1 < len2 ∨ (len1 = len2 ∧ os1.2 ≤ os2.2) then os1 else os2

/-- `encode_from_0` loop, fuel-indexed: repeatedly replace the target by its
nearest square root while it is at least 4, collecting the correction
offsets front-first, then finish with a plain run from zero. -/
def encodeFrom0Go : Nat → Value → Option (List Offset × Nat)
  | 0, _ => none
  | fuel + 1, v =>
    if 4 ≤ v.val then
      let so := v.nearestSqrt
      match encodeFrom0Go fuel so.1 with
      | none => none
      | some (offs, len) => some (offs ++ [so.2], len + so.2.len + 1)
    else
      some ([⟨(v.val : Int)⟩], v.val)

/-- `encode_from_0` (`heuristic.rs`); the fuel `v.val + 1` is sufficient
because the root strictly decreases, so the result is never `none` there. -/
def encodeFrom0 (v : Value) : Option (List Offset × Nat) :=
  encodeFrom0Go (v.val + 1) v

/-- `heuristic_encode` (`heuristic.rs`): pick the direct same-side offset or
the two-leg route through zero, whichever is shorter (ties favour the direct
offset). -/
def heuristicEncode (b : Builder) (v : Value) : Option Builder :=
  let acc := b.acc
  let simpleOffset := acc.offsetTo v
  let os0 := encodeTo0 acc
  match encodeFrom0 v with
  | none => none
  | some (offsetsFrom0, lenFrom0) =>
    let lenVia0 := os0.1.len + os0.2 + lenFrom0
    if (simpleOffset.map (fun o => decide (o.len ≤ lenVia0))).getD false then
      some (b.offset ((simpleOffset).getD ⟨0⟩))
    else
      some (((b.offset os0.1).square os0.2).offsetSquares offsetsFrom0)

/-- `Builder::push_number`: encode `n` heuristically, append an output
instruction, and pin the tracked accumulator to `n`. -/
def Builder.pushNumber (b : Builder) (n : Value) : Option Builder :=
  match heuristicEncode b n with
  | none => none
  | some b1 => some ⟨b1.insts ++ [Inst.O], n⟩

/-- `Inst::encode_number`: run the heuristic on a fresh builder. -/
def Inst.encodeNumber (src tgt : Value) : Option (List Inst) :=
  ((Builder.new src).pushNumber tgt).map Builder.insts

/-- `usize::MAX`, the sentinel predecessor index of the BFS root. -/
def USIZEMAX : Nat := 18446744073709551615

/-- `Node` from `bfs.rs`: an arena entry of the search. -/
structure BNode where
  v : Value
  inst : Option Inst
  prev : Nat
  len : Nat
deriving DecidableEq

/-- The mutable search state of `BfsEncoder::encode`: arena, read index,
visited set, the two fallback anchors, and a ghost trace recording the path
length of every node that gets expanded. -/
structure BfsState where
  queue : List BNode
  index : Nat
  visited : List Value
  zeroIdx : Option Nat
  closest : Option (Nat × Offset × Nat)
  trace : List Nat
deriving DecidableEq

/-- `BfsEncoder::path_from_queue` walk, fuel-indexed: follow predecessor
indices back to the root, prepending each instruction; `none` models an
out-of-bounds index or a cycle (an aborted run). -/
def pathWalk (queue : List BNode) : Nat → Nat → List Inst → Option (List Inst)
  | 0, _, _ => none
  | fuel + 1, idx, acc =>
    match queue[idx]? with
    | none => none
    | some node =>
      match node.inst with
      | none => some acc
      | some inst => pathWalk queue fuel node.prev (inst :: acc)

/-- `BfsEncoder::path_from_queue`. -/
def pathFromQueue (queue : List BNode) (tail : Nat) : Option (List Inst) :=
  pathWalk queue (queue.length + 1) tail []

/-- The closest-square tracking of the BFS expansion: on a Square edge whose
child has a same-side offset to the target, keep the candidate minimizing
path length plus offset length (ties keep the incumbent).  `i1` is the arena
index recorded for the candidate; the source reads `self.queue.len()` after
the push, i.e. one past the pushed node. -/
def bfsClosestUpdate (tgt : Value) (i1 : Nat) (v : Value) (childLen : Nat)
    (inst : Inst) (closest : Option (Nat × Offset × Nat)) :
    Option (Nat × Offset × Nat) :=
  if inst = Inst.S then
    match v.offsetTo tgt with
    | some off =>
      let plen := childLen + off.len
      match closest with
      | some (j, o, l) => if l ≤ plen then some (j, o, l) else some (i1, off, plen)
      | none => some (i1, off, plen)
    | none => closest
  else closest

/-- One child push of the BFS expansion loop: apply `inst` to the dequeued
node, skip if visited, otherwise append the child node, and track the
closest-square anchor. -/
def bfsPushChild (tgt : Value) (i : Nat) (node : BNode) (st : BfsState)
    (inst : Inst) : BfsState :=
  let v := node.v.apply inst
  if v ∈ st.visited then st
  else
    { st with
      queue := st.queue ++ [⟨v, some inst, i, node.len + 1⟩],
      visited := v :: st.visited,
      closest := bfsClosestUpdate tgt (st.queue.length + 1) v (node.len + 1) inst st.closest }

/-- Expansion of one dequeued node along the three mutating edges. -/
def bfsExpand (tgt : Value) (i : Nat) (node : BNode) (st : BfsState) : BfsState :=
  bfsPushChild tgt i node (bfsPushChild tgt i node (bfsPushChild tgt i node st Inst.I) Inst.D) Inst.S

/-- The fallback of `BfsEncoder::encode` once the traversal is exhausted:
complete the first zero node heuristically, and/or offset from the tracked
closest square node, keeping the shorter path.  `none` models an abort
(out-of-bounds arena index or missing fuel). -/
def bfsFallback (tgt : Value) (st : BfsState) : Option (Option (List Inst) × Bool) :=
  match st.zeroIdx with
  | some i =>
    match pathFromQueue st.queue i with
    | none => none
    | some pref =>
      match heuristicEncode (Builder.fromInsts pref Value.new) tgt with
      | none => none
      | some b => bfsFallbackSquare st (some b.insts)
  | none => bfsFallbackSquare st none
where
  /-- The closest-square half of the fallback. -/
  bfsFallbackSquare (st : BfsState) (path : Option (List Inst)) :
      Option (Option (List Inst) × Bool) :=
    match st.closest with
    | none => some (path, false)
    | some (i, off, _) =>
      match pathFromQueue st.queue i, st.queue[i]? with
      | some pref, some node =>
        let squarePath := ((Builder.fromInsts pref node.v).offset off).insts
        match path with
        | some p =>
          if p.length ≤ squarePath.length then some (some p, false)
          else some (some squarePath, false)
        | none => some (some squarePath, false)
      | _, _ => none

/-- One non-returning iteration of the `BfsEncoder::encode` loop on the
dequeued `node`: record the first zero node, expand along the three edges
while under the bound, and advance the read index. -/
def bfsLoopNext (tgt : Value) (bound : Nat) (st : BfsState) (node : BNode) : BfsState :=
  let st1 := if node.v.val = 0 ∧ st.zeroIdx = none
    then { st with zeroIdx := some st.index } else st
  if node.len < bound
    then { bfsExpand tgt st.index node { st1 with trace := node.len :: st1.trace } with
      index := st.index + 1 }
    else { st1 with index := st.index + 1 }

/-- The `while let Some((i, node)) = self.queue_next()` loop of
`BfsEncoder::encode`, fuel-indexed. -/
def bfsLoop (tgt : Value) (bound : Nat) : Nat → BfsState → Option ((Option (List Inst) × Bool) × List Nat)
  | 0, _ => none
  | fuel + 1, st =>
    match st.queue[st.index]? with
    | none => (bfsFallback tgt st).map (fun r => (r, st.trace))
    | some node =>
      if node.v = tgt then
        (pathFromQueue st.queue st.index).map (fun p => ((some p, true), st.trace))
      else
        bfsLoop tgt bound fuel (bfsLoopNext tgt bound st node)

/-- Fuel that the BFS loop can never exhaust: the arena holds at most one
node per distinct `u32` value plus the root. -/
def BFSFUEL : Nat := U32 + 2

/-- The initial search state of one `encode` call. -/
def bfsInit (src : Value) : BfsState :=
  ⟨[⟨src, none, USIZEMAX, 0⟩], 0, [], none, none, []⟩

/-- `BfsEncoder::encode` with the ghost expansion trace. -/
def bfsEncodeT (src tgt : Value) (bound : Nat) :
    Option ((Option (List Inst) × Bool) × List Nat) :=
  bfsLoop tgt bound BFSFUEL (bfsInit src)

/-- `BfsEncoder::encode`: result and optimality flag; `none` models an
aborted run (which the proofs below rule out on the optimal path). -/
def bfsEncode (src tgt : Value) (bound : Nat) : Option (Option (List Inst) × Bool) :=
  (bfsEncodeT src tgt bound).map Prod.fst

/-- `BfsEncoder::with_bound`: the bound is stored in a `u16`, saturating. -/
def bfsWithBound (maxLen : Nat) : Nat := min maxLen 65535

/-- The three accumulator-mutating instructions, i.e. the edges of the BFS
state graph. -/
def StepInst (i : Inst) : Prop := i = Inst.I ∨ i = Inst.D ∨ i = Inst.S

instance (i : Inst) : Decidable (StepInst i) := by
  unfold StepInst; infer_instance

/-- A path in the step graph: every instruction is `i`, `d`, or `s`. -/
def StepPath (p : List Inst) : Prop := ∀ i ∈ p, StepInst i

instance (p : List Inst) : Decidable (StepPath p) :=
  List.decidableBAll _ p

/-- The loop invariant of `BfsEncoder::encode`, relating the search state to
the start value, target and bound. -/
structure BfsInv (src tgt : Value) (bound : Nat) (st : BfsState) : Prop where
  root : st.queue[0]? = some ⟨src, none, USIZEMAX, 0⟩
  index_le : st.index ≤ st.queue.length
  wf : ∀ (j : Nat) (nj : BNode), st.queue[j]? = some nj → 0 < j →
    ∃ inst prevNode, nj.inst = some inst ∧ StepInst inst ∧
      nj.prev < j ∧ nj.prev < st.index ∧
      st.queue[nj.prev]? = some prevNode ∧
      nj.v = prevNode.v.apply inst ∧ nj.len = prevNode.len + 1
  sorted : ∀ (j k : Nat) (nj nk : BNode), st.queue[j]? = some nj → st.queue[k]? = some nk →
    j ≤ k → nj.len ≤ nk.len
  visited_iff : ∀ v : Value, v ∈ st.visited ↔
    ∃ (j : Nat) (nj : BNode), 0 < j ∧ st.queue[j]? = some nj ∧ nj.v = v
  expanded : ∀ (j : Nat) (nj : BNode), st.queue[j]? = some nj → j < st.index → nj.len < bound →
    ∀ inst, StepInst inst → ∃ (k : Nat) (cnode : BNode), st.queue[k]? = some cnode ∧
      cnode.v = nj.v.apply inst ∧ cnode.len ≤ nj.len + 1
  not_target : ∀ (j : Nat) (nj : BNode), st.queue[j]? = some nj → j < st.index → nj.v ≠ tgt
  visited_nodup : st.visited.Nodup
  visited_lt : ∀ v ∈ st.visited, v.val < U32
  count : st.queue.length = st.visited.length + 1
  trace_lt : ∀ L ∈ st.trace, L < bound

/-- The intermediate invariant while the three children of the node at
index `i` are being pushed; `done` records the edges already processed. -/
structure BfsMidInv (src tgt : Value) (bound : Nat) (i : Nat) (node : BNode)
    (done : List Inst) (st : BfsState) : Prop where
  root : st.queue[0]? = some ⟨src, none, USIZEMAX, 0⟩
  index_eq : st.index = i
  parent : st.queue[i]? = some node
  wf : ∀ (j : Nat) (nj : BNode), st.queue[j]? = some nj → 0 < j →
    ∃ inst prevNode, nj.inst = some inst ∧ StepInst inst ∧
      nj.prev < j ∧ nj.prev ≤ i ∧
      st.queue[nj.prev]? = some prevNode ∧
      nj.v = prevNode.v.apply inst ∧ nj.len = prevNode.len + 1
  sorted : ∀ (j k : Nat) (nj nk : BNode), st.queue[j]? = some nj →
    st.queue[k]? = some nk → j ≤ k → nj.len ≤ nk.len
  visited_iff : ∀ v : Value, v ∈ st.visited ↔
    ∃ (j : Nat) (nj : BNode), 0 < j ∧ st.queue[j]? = some nj ∧ nj.v = v
  expandedOld : ∀ (j : Nat) (nj : BNode), st.queue[j]? = some nj → j < i →
    nj.len < bound → ∀ inst, StepInst inst →
    ∃ (k : Nat) (cnode : BNode), st.queue[k]? = some cnode ∧
      cnode.v = nj.v.apply inst ∧ cnode.len ≤ nj.len + 1
  not_target_old : ∀ (j : Nat) (nj : BNode), st.queue[j]? = some nj → j < i →
    nj.v ≠ tgt
  visited_nodup : st.visited.Nodup
  visited_lt : ∀ v ∈ st.visited, v.val < U32
  count : st.queue.length = st.visited.length + 1
  trace_lt : ∀ L ∈ st.trace, L < bound
  all_le : ∀ (j : Nat) (nj : BNode), st.queue[j]? = some nj → nj.len ≤ node.len + 1
  handled : ∀ inst ∈ done, ∃ (k : Nat) (cnode : BNode),
    st.queue[k]? = some cnode ∧ cnode.v = node.v.apply inst ∧
    cnode.len ≤ node.len + 1

/-- C1: the heuristic encoder is claimed to always produce a path that
evaluates to the target; the target 65536 refutes this.  Its nearest-root
chain is 65536, 256, 16, 4, 2, but replaying it forward normalizes the
square 256 to 0, so the produced path `iissss o` outputs 0, contradicting
the round-trip claim and the `debug_assert_eq!(v, b.acc())` in
`heuristic_encode`. -/
theorem encode_number_65536_outputs_zero :
    Inst.encodeNumber ⟨0⟩ ⟨65536⟩ =
      some [Inst.I, Inst.I, Inst.S, Inst.S, Inst.S, Inst.S, Inst.O] ∧
    Inst.eval [Inst.I, Inst.I, Inst.S, Inst.S, Inst.S, Inst.S, Inst.O] ⟨0⟩ = ⟨0⟩ ∧
    Value.Valid ⟨65536⟩ ∧ (⟨0⟩ : Value) ≠ (⟨65536⟩ : Value) := by
  refine ⟨by decide, by decide, by decide, by decide⟩

/-- C4: when the bounded search is exhausted, the fallback path anchored on
the tracked closest-square node is claimed to evaluate to the target.  With
`from = 3`, `to = 12`, bound 2, the search tracks the square node `9` but
records the arena index one past it (the index is read after the push), so
the fallback anchors on the node holding value 5 and returns `iiiii`, which
evaluates to 8, not 12. -/
theorem bfs_fallback_anchor_off_by_one :
    bfsEncode ⟨3⟩ ⟨12⟩ 2 =
      some (some [Inst.I, Inst.I, Inst.I, Inst.I, Inst.I], false) ∧
    Inst.eval [Inst.I, Inst.I, Inst.I, Inst.I, Inst.I] ⟨3⟩ = ⟨8⟩ ∧
    (⟨8⟩ : Value) ≠ (⟨12⟩ : Value) := by
  refine ⟨by decide, by decide, by decide⟩

/-- C5 counterexample: `encode(0, 0)` returns the empty sequence (marked
optimal), not `[Output]` — the BFS success path never appends an Output
instruction. -/
theorem bfs_encode_zero_zero_no_output :
    bfsEncode ⟨0⟩ ⟨0⟩ 16 = some (some ([] : List Inst), true) ∧
    ([] : List Inst) ≠ [Inst.O] := by
  refine ⟨by decide, by decide⟩

/-- C5 (amended): on success the search returns the reversed
predecessor-walk path with no Output appended; concretely
`encode(0, 0) = (Some [], true)` and `encode(0, 4) = (Some iis, true)`. -/
theorem bfs_encode_success_scenarios :
    bfsEncode ⟨0⟩ ⟨0⟩ 16 = some (some ([] : List Inst), true) ∧
    bfsEncode ⟨0⟩ ⟨4⟩ 16 = some (some [Inst.I, Inst.I, Inst.S], true) := by
  refine ⟨by decide, by decide⟩

/-- C6: the concrete heuristic scenarios.  `encode_number(0, 4)` is
`iiso`; `encode_number(0, 7)` is a 7-instruction sequence equal to one of
the two admissible optima (it is `iiisddo`); `encode_number(87, 111)` is
the canonical 23-instruction `issssiiisiisddddddddddo`, which evaluates
from 87 to 111. -/
theorem encode_number_concrete_scenarios :
    Inst.encodeNumber ⟨0⟩ ⟨4⟩ = some [Inst.I, Inst.I, Inst.S, Inst.O] ∧
    (Inst.encodeNumber ⟨0⟩ ⟨7⟩ =
        some [Inst.I, Inst.I, Inst.I, Inst.S, Inst.D, Inst.D, Inst.O] ∨
      Inst.encodeNumber ⟨0⟩ ⟨7⟩ =
        some [Inst.I, Inst.I, Inst.S, Inst.I, Inst.I, Inst.I, Inst.O]) ∧
    [Inst.I, Inst.I, Inst.I, Inst.S, Inst.D, Inst.D, Inst.O].length = 7 ∧
    Inst.encodeNumber ⟨87⟩ ⟨111⟩ =
      some [Inst.I, Inst.S, Inst.S, Inst.S, Inst.S, Inst.I, Inst.I, Inst.I,
        Inst.S, Inst.I, Inst.I, Inst.S, Inst.D, Inst.D, Inst.D, Inst.D,
        Inst.D, Inst.D, Inst.D, Inst.D, Inst.D, Inst.D, Inst.O] ∧
    [Inst.I, Inst.S, Inst.S, Inst.S, Inst.S, Inst.I, Inst.I, Inst.I,
        Inst.S, Inst.I, Inst.I, Inst.S, Inst.D, Inst.D, Inst.D, Inst.D,
        Inst.D, Inst.D, Inst.D, Inst.D, Inst.D, Inst.D, Inst.O].length = 23 ∧
    Inst.eval [Inst.I, Inst.S, Inst.S, Inst.S, Inst.S, Inst.I, Inst.I, Inst.I,
        Inst.S, Inst.I, Inst.I, Inst.S, Inst.D, Inst.D, Inst.D, Inst.D,
        Inst.D, Inst.D, Inst.D, Inst.D, Inst.D, Inst.D, Inst.O] ⟨87⟩ = ⟨111⟩ := by
  refine ⟨by decide, Or.inl (by decide), by decide, by decide, by decide, by decide⟩

theorem Valid_mk (n : Nat) :
    Value.Valid ⟨n⟩ ↔ n < 4294967296 ∧ n ≠ 256 ∧ n ≠ 4294967295 := Iff.rfl

theorem normalizeU32_lt (n : Nat) (h : n < U32) :
    normalizeU32 n < 4294967296 ∧ normalizeU32 n ≠ 256 ∧ normalizeU32 n ≠ 4294967295 := by
  have h' : n < 4294967296 := h
  simp only [normalizeU32, U32MAX]
  split_ifs with hn <;> omega

theorem valid_fromU32 (n : Nat) : (Value.fromU32 n).Valid := by
  have h2 : n % U32 < U32 := Nat.mod_lt _ (by decide)
  exact (Valid_mk _).mpr (normalizeU32_lt (n % U32) h2)

theorem valid_increment (v : Value) : v.increment.Valid := valid_fromU32 _

theorem valid_decrement (v : Value) : v.decrement.Valid := valid_fromU32 _

theorem valid_square (v : Value) : v.square.Valid := valid_fromU32 _

theorem valid_apply (v : Value) (hv : v.Valid) (inst : Inst) : (v.apply inst).Valid := by
  cases inst
  case I => exact valid_increment v
  case D => exact valid_decrement v
  case S => exact valid_square v
  case O => exact hv
  case Blank => exact hv

theorem valid_eval (p : List Inst) (v : Value) (hv : v.Valid) : (Inst.eval p v).Valid := by
  induction p generalizing v with
  | nil => exact hv
  | cons i p ih => exact ih _ (valid_apply v hv i)

theorem valid_addU32 (v : Value) (hv : v.Valid) (k : Nat) : (v.addU32 k).Valid := by
  have h1 : v.val < 4294967296 := hv.1
  have h2 : v.val ≠ 256 := hv.2.1
  have h3 : v.val ≠ 4294967295 := hv.2.2
  simp only [Value.addU32, U32MAX]
  split_ifs with h
  · exact (Valid_mk _).mpr (by omega)
  · exact (Valid_mk _).mpr (by omega)

theorem valid_subU32 (v : Value) (hv : v.Valid) (k : Nat) : (v.subU32 k).Valid := by
  have h1 : v.val < 4294967296 := hv.1
  have h2 : v.val ≠ 256 := hv.2.1
  have h3 : v.val ≠ 4294967295 := hv.2.2
  simp only [Value.subU32, U32MAX]
  split_ifs with h
  · exact (Valid_mk _).mpr (by omega)
  · exact (Valid_mk _).mpr (by omega)

theorem valid_saturatingAdd (v : Value) (hv : v.Valid) (k : Nat) :
    (v.saturatingAdd k).Valid := by
  have h1 : v.val < 4294967296 := hv.1
  have h2 : v.val ≠ 256 := hv.2.1
  have h3 : v.val ≠ 4294967295 := hv.2.2
  simp only [Value.saturatingAdd, U32MAX]
  split_ifs with h h4
  · exact (Valid_mk _).mpr (by omega)
  · exact (Valid_mk _).mpr (by omega)
  · exact (Valid_mk _).mpr (by omega)

theorem valid_saturatingSub (v : Value) (hv : v.Valid) (k : Nat) :
    (v.saturatingSub k).Valid := by
  have h1 : v.val < 4294967296 := hv.1
  have h2 : v.val ≠ 256 := hv.2.1
  have h3 : v.val ≠ 4294967295 := hv.2.2
  simp only [Value.saturatingSub, U32MAX]
  split_ifs with h h4
  · exact (Valid_mk _).mpr (by omega)
  · exact (Valid_mk _).mpr (by omega)
  · exact (Valid_mk _).mpr (by omega)

theorem valid_addOffset (v : Value) (hv : v.Valid) (o : Offset) :
    (v.addOffset o).Valid := by
  unfold Value.addOffset
  split_ifs with h
  · exact valid_addU32 v hv _
  · exact valid_subU32 v hv _

theorem sqRepAux_valid (c n : Nat) (h1 : n < 4294967296) (h2 : n ≠ 256)
    (h3 : n ≠ 4294967295) :
    sqRepAux c n < 4294967296 ∧ sqRepAux c n ≠ 256 ∧ sqRepAux c n ≠ 4294967295 := by
  induction c generalizing n with
  | zero => exact ⟨h1, h2, h3⟩
  | succ c ih =>
    have hmod : n * n % U32 < U32 := Nat.mod_lt _ (by decide)
    have hm := normalizeU32_lt (n * n % U32) hmod
    simp only [sqRepAux]
    split_ifs with h
    · exact ⟨by omega, by omega, by omega⟩
    · exact ih _ hm.1 hm.2.1 hm.2.2

theorem valid_squareRepeat (v : Value) (hv : v.Valid) (c : Nat) :
    (v.squareRepeat c).Valid := by
  exact (Valid_mk _).mpr (sqRepAux_valid c v.val hv.1 hv.2.1 hv.2.2)

/-- C7: normalization closure.  `Value::from` never yields magnitude 256 nor
the all-ones pattern, and every `Value`-producing operation (`apply`,
`increment`, `decrement`, `square`, `saturating_add`, `saturating_sub`,
`square_repeat`, and the `+`/`-` operators) preserves the invariant. -/
theorem value_normalization_closure :
    (∀ n : Nat, (Value.fromU32 n).val ≠ 256 ∧ (Value.fromU32 n).val ≠ U32MAX) ∧
    (∀ (v : Value), v.Valid →
      (∀ inst, (v.apply inst).Valid) ∧
      v.increment.Valid ∧ v.decrement.Valid ∧ v.square.Valid ∧
      (∀ k, (v.saturatingAdd k).Valid ∧ (v.saturatingSub k).Valid ∧
        (v.addU32 k).Valid ∧ (v.subU32 k).Valid ∧ (v.squareRepeat k).Valid) ∧
      (∀ o : Offset, (v.addOffset o).Valid)) := by
  refine ⟨fun n => ⟨(valid_fromU32 n).2.1, (valid_fromU32 n).2.2⟩, fun v hv => ?_⟩
  exact ⟨valid_apply v hv, valid_increment v, valid_decrement v, valid_square v,
    fun k => ⟨valid_saturatingAdd v hv k, valid_saturatingSub v hv k,
      valid_addU32 v hv k, valid_subU32 v hv k, valid_squareRepeat v hv k⟩,
    valid_addOffset v hv⟩

/-- Witness for C7 at `v = 300`, `k = 100`, `o = -3`, instantiating the
closure theorem at concrete inputs. -/
theorem value_normalization_closure_witness :
    (Value.fromU32 4294967295).val ≠ 256 ∧
    Value.Valid ⟨300⟩ ∧
    ((⟨300⟩ : Value).apply Inst.S).Valid ∧ ((⟨300⟩ : Value).saturatingSub 100).Valid ∧
    ((⟨300⟩ : Value).addOffset ⟨-3⟩).Valid := by
  have h := value_normalization_closure
  have h300 : Value.Valid ⟨300⟩ := by decide
  have h2 := h.2 ⟨300⟩ h300
  exact ⟨(h.1 4294967295).1, h300, h2.1 Inst.S, (h2.2.2.2.2.1 100).2.1,
    h2.2.2.2.2.2 ⟨-3⟩⟩

theorem isqrtGo_spec (n : Nat) : ∀ (b r : Nat), r * r ≤ n → n < (r + 2 ^ b) * (r + 2 ^ b) →
    isqrtGo n b r * isqrtGo n b r ≤ n ∧ n < (isqrtGo n b r + 1) * (isqrtGo n b r + 1) := by
  intro b
  induction b with
  | zero =>
    intro r h1 h2
    simp only [isqrtGo]
    constructor
    · exact h1
    · simpa using h2
  | succ b ih =>
    intro r h1 h2
    simp only [isqrtGo]
    split_ifs with h
    · refine ih (r + 2 ^ b) h ?_
      have hp : r + 2 ^ (b + 1) = r + 2 ^ b + 2 ^ b := by rw [pow_succ]; ring
      rw [hp] at h2
      exact h2
    · exact ih r h1 (by omega)

theorem u32Sqrt_spec (n : Nat) (h : n < U32) :
    u32Sqrt n * u32Sqrt n ≤ n ∧ n < (u32Sqrt n + 1) * (u32Sqrt n + 1) := by
  refine isqrtGo_spec n 16 0 (by omega) ?_
  have h' : n < 4294967296 := h
  omega

theorem u32Sqrt_le_65535 (n : Nat) (h : n < U32) : u32Sqrt n ≤ 65535 := by
  by_contra hc
  have h1 := (u32Sqrt_spec n h).1
  have h2 : n < 4294967296 := h
  have : 65536 * 65536 ≤ u32Sqrt n * u32Sqrt n := Nat.mul_le_mul (by omega) (by omega)
  omega

theorem u32SqrtCeil_ge (n : Nat) (h : n < U32) : n ≤ u32SqrtCeil n * u32SqrtCeil n := by
  simp only [u32SqrtCeil]
  split_ifs with hp
  · omega
  · have := (u32Sqrt_spec n h).2
    omega

theorem u32SqrtCeil_le (n : Nat) : u32SqrtCeil n ≤ u32Sqrt n + 1 := by
  simp only [u32SqrtCeil]
  split_ifs with hp <;> simp

theorem u32Sqrt_le_ceil (n : Nat) : u32Sqrt n ≤ u32SqrtCeil n := by
  simp only [u32SqrtCeil]
  split_ifs with hp <;> simp

/-- C8: `nearest_sqrt` returns a root and a signed offset with
`root * root + offset = value` exactly, and the root is never 16 nor
65536. -/
theorem nearest_sqrt_exact (v : Value) (hv : v.Valid) :
    ((v.nearestSqrt.1.val : Int) * (v.nearestSqrt.1.val : Int) + v.nearestSqrt.2.val
        = (v.val : Int)) ∧
    v.nearestSqrt.1.val ≠ 16 ∧ v.nearestSqrt.1.val ≠ 65536 := by
  obtain ⟨h1, h2, h3⟩ := hv
  have h1' : v.val < 4294967296 := h1
  have hfl := (u32Sqrt_spec v.val h1).1
  have hfl2 := (u32Sqrt_spec v.val h1).2
  have hfl65535 := u32Sqrt_le_65535 v.val h1
  have hclge := u32SqrtCeil_ge v.val h1
  have hclle := u32SqrtCeil_le v.val
  have hflcl := u32Sqrt_le_ceil v.val
  simp only [Value.nearestSqrt]
  split_ifs with h
  · refine ⟨?_, ?_, ?_⟩
    · simp only
      have : ((v.val - u32Sqrt v.val * u32Sqrt v.val : Nat) : Int)
          = (v.val : Int) - (u32Sqrt v.val : Int) * (u32Sqrt v.val : Int) := by
        push_cast [Nat.cast_sub hfl]
        ring
      rw [this]
      ring
    · simp only
      rcases h with ⟨_, hne⟩ | hcl | hcl
      · exact hne
      · -- ceil = 16: the floor is 15 unless the value is 256 (excluded)
        intro hfe
        simp only [u32SqrtCeil] at hcl
        split_ifs at hcl with hp
        · rw [hcl] at hp hfe
          omega
        · omega
      · -- ceil = 65536: the floor is 65535
        intro hfe
        rw [hfe] at hclle hflcl
        omega
    · simp only
      omega
  · push_neg at h
    obtain ⟨hor, hc16, hc65536⟩ := h
    have hcl65535 : u32SqrtCeil v.val ≤ 65535 := by
      rcases Nat.lt_or_ge (u32SqrtCeil v.val) 65536 with hlt | hge
      · omega
      · omega
    have hclsq : u32SqrtCeil v.val * u32SqrtCeil v.val < 4294967296 := by
      have : u32SqrtCeil v.val * u32SqrtCeil v.val ≤ 65535 * 65535 :=
        Nat.mul_le_mul hcl65535 hcl65535
      omega
    have hmod1 : u32SqrtCeil v.val * u32SqrtCeil v.val % U32
        = u32SqrtCeil v.val * u32SqrtCeil v.val := Nat.mod_eq_of_lt hclsq
    have hmodv : v.val % U32 = v.val := Nat.mod_eq_of_lt h1
    refine ⟨?_, ?_, ?_⟩
    · simp only [hmod1, hmodv]
      have hd : (u32SqrtCeil v.val * u32SqrtCeil v.val + (U32 - v.val)) % U32
          = u32SqrtCeil v.val * u32SqrtCeil v.val - v.val := by
        have hU : U32 = 4294967296 := rfl
        rw [hU]
        omega
      rw [hd]
      have : ((u32SqrtCeil v.val * u32SqrtCeil v.val - v.val : Nat) : Int)
          = (u32SqrtCeil v.val : Int) * (u32SqrtCeil v.val : Int) - (v.val : Int) := by
        push_cast [Nat.cast_sub hclge]
        ring
      rw [this]
      ring
    · simpa using hc16
    · simpa using hc65536

/-- Witness for C8 at `v = 10`: root 3, offset `+1`. -/
theorem nearest_sqrt_exact_witness :
    Value.Valid ⟨10⟩ ∧
    (((Value.nearestSqrt ⟨10⟩).1.val : Int) * ((Value.nearestSqrt ⟨10⟩).1.val : Int)
        + (Value.nearestSqrt ⟨10⟩).2.val = ((10 : Nat) : Int)) ∧
    (Value.nearestSqrt ⟨10⟩).1.val ≠ 16 := by
  have h := nearest_sqrt_exact ⟨10⟩ (by decide)
  exact ⟨by decide, h.1, h.2.1⟩

/-- C10 counterexample: at the valid value 4294836226 (which is
`65535 * 65535 + 1`) the computed ceiling root is 65536, whose square
`2 ^ 32` does not fit in a `u32` — the multiplication `ceil * ceil` in
`nearest_sqrt` overflows. -/
theorem nearest_sqrt_ceil_overflows :
    Value.Valid ⟨4294836226⟩ ∧
    u32SqrtCeil (4294836226 : Nat) = 65536 ∧
    ¬ (u32SqrtCeil (4294836226 : Nat) * u32SqrtCeil (4294836226 : Nat) ≤ U32MAX) := by
  refine ⟨by decide, by decide, by decide⟩

/-- C10 (amended): inside `nearest_sqrt` the subtraction
`value - floor * floor` never underflows, and for values at most
`65535 * 65535` the product `ceil * ceil` fits in a `u32` and dominates the
value, so `ceil * ceil - value` does not underflow either. -/
theorem nearest_sqrt_arith_in_bounds (v : Value) (hv : v.Valid) :
    u32Sqrt v.val * u32Sqrt v.val ≤ v.val ∧
    (v.val ≤ 65535 * 65535 →
      u32SqrtCeil v.val * u32SqrtCeil v.val ≤ U32MAX ∧
      v.val ≤ u32SqrtCeil v.val * u32SqrtCeil v.val) := by
  have h1 := hv.1
  refine ⟨(u32Sqrt_spec v.val h1).1, fun hle => ⟨?_, u32SqrtCeil_ge v.val h1⟩⟩
  have hcl : u32SqrtCeil v.val ≤ 65535 := by
    simp only [u32SqrtCeil]
    split_ifs with hp
    · have := u32Sqrt_le_65535 v.val h1
      omega
    · by_contra hc
      have hge : 65535 ≤ u32Sqrt v.val := by omega
      have : 65535 * 65535 ≤ u32Sqrt v.val * u32Sqrt v.val :=
        Nat.mul_le_mul hge hge
      have := (u32Sqrt_spec v.val h1).1
      have hpe : u32Sqrt v.val = 65535 := by
        have := u32Sqrt_le_65535 v.val h1
        omega
      rw [hpe] at hp this
      omega
  have : u32SqrtCeil v.val * u32SqrtCeil v.val ≤ 65535 * 65535 :=
    Nat.mul_le_mul hcl hcl
  show _ ≤ 4294967295
  omega

/-- Witness for C10 (amended) at `v = 10`. -/
theorem nearest_sqrt_arith_in_bounds_witness :
    Value.Valid ⟨10⟩ ∧ (10 : Nat) ≤ 65535 * 65535 ∧
    u32Sqrt 10 * u32Sqrt 10 ≤ 10 ∧
    u32SqrtCeil 10 * u32SqrtCeil 10 ≤ U32MAX := by
  have h := nearest_sqrt_arith_in_bounds ⟨10⟩ (by decide)
  exact ⟨by decide, by decide, h.1, (h.2 (by decide)).1⟩

theorem tzAux_self_zero (f : Nat) : tzAux f 0 = f := by
  induction f with
  | zero => rfl
  | succ f ih => simp [tzAux, ih]

theorem tzAux_two_pow_mul (k : Nat) : ∀ (f m : Nat), m % 2 = 1 → k < f →
    tzAux f (2 ^ k * m) = k := by
  induction k with
  | zero =>
    intro f m hm hk
    obtain ⟨f, rfl⟩ := Nat.exists_eq_succ_of_ne_zero (Nat.pos_iff_ne_zero.mp hk)
    simp [tzAux, hm]
  | succ k ih =>
    intro f m hm hk
    obtain ⟨f, rfl⟩ := Nat.exists_eq_succ_of_ne_zero (by omega : f ≠ 0)
    have heven : 2 ^ (k + 1) * m % 2 = 0 := by
      have : (2 : Nat) ∣ 2 ^ (k + 1) * m := Dvd.dvd.mul_right ⟨2 ^ k, by ring⟩ m
      omega
    have hdiv : 2 ^ (k + 1) * m / 2 = 2 ^ k * m := by
      rw [pow_succ]
      rw [show 2 ^ k * 2 * m = 2 ^ k * m * 2 from by ring]
      exact Nat.mul_div_cancel _ (by omega)
    simp only [tzAux, heven, hdiv]
    rw [ih f m hm (by omega)]
    simp

theorem u32_eq_two_pow : U32 = 2 ^ 32 := by decide

/-- C9: squaring modulo `2 ^ 32` doubles the trailing-zero count, capped at
32 (`n.wrapping_mul(n).trailing_zeros() == (2 * n.trailing_zeros()).min(32)`,
the property stated in the `heuristic.rs` module documentation). -/
theorem trailing_zero_doubling (n : Nat) (h : n < U32) :
    trailingZeros32 (n * n % U32) = min (2 * trailingZeros32 n) 32 := by
  rcases Nat.eq_zero_or_pos n with hn | hn
  · subst hn
    simp only [Nat.zero_mul, Nat.zero_mod, trailingZeros32, tzAux_self_zero]
    omega
  · obtain ⟨k, m, hme, hnd⟩ :=
      Nat.exists_eq_pow_mul_and_not_dvd (Nat.pos_iff_ne_zero.mp hn) 2 (by omega)
    have hm : m % 2 = 1 := by omega
    have hmpos : 0 < m := by omega
    have hk31 : k < 32 := by
      by_contra hc
      have h1 : 2 ^ 32 ≤ 2 ^ k := Nat.pow_le_pow_right (by omega) (by omega)
      have h2 : 2 ^ k ≤ 2 ^ k * m := Nat.le_mul_of_pos_right _ hmpos
      rw [u32_eq_two_pow] at h
      omega
    have htzn : trailingZeros32 n = k := by
      rw [hnd]
      exact tzAux_two_pow_mul k 32 m hm hk31
    have hsq : n * n = 2 ^ (2 * k) * (m * m) := by
      rw [hnd, two_mul, pow_add]
      ring
    rcases Nat.lt_or_ge (2 * k) 32 with hlt | hge
    · -- the doubled count still fits: the residue keeps exactly 2k zeros
      have hsplit : (2 : Nat) ^ 32 = 2 ^ (2 * k) * 2 ^ (32 - 2 * k) := by
        rw [← pow_add]
        congr 1
        omega
      have hmm : m * m % 2 = 1 := by
        have := Nat.mul_mod m m 2
        rw [hm] at this
        simpa using this
      have hrodd : m * m % 2 ^ (32 - 2 * k) % 2 = 1 := by
        have hdvd : (2 : Nat) ∣ 2 ^ (32 - 2 * k) :=
          dvd_pow_self 2 (by omega : 32 - 2 * k ≠ 0)
        rw [Nat.mod_mod_of_dvd _ hdvd]
        exact hmm
      have hmod : n * n % U32 = 2 ^ (2 * k) * (m * m % 2 ^ (32 - 2 * k)) := by
        rw [u32_eq_two_pow, hsq, hsplit]
        exact Nat.mul_mod_mul_left _ _ _
      rw [hmod, htzn]
      show tzAux 32 _ = _
      rw [tzAux_two_pow_mul (2 * k) 32 _ hrodd hlt]
      omega
    · -- 2k reaches 32: the square is divisible by 2^32, hence wraps to 0
      have hdvd : U32 ∣ n * n := by
        rw [u32_eq_two_pow, hsq]
        exact Dvd.dvd.mul_right (pow_dvd_pow 2 hge) _
      have hz : n * n % U32 = 0 := Nat.mod_eq_zero_of_dvd hdvd
      rw [hz, htzn]
      show tzAux 32 0 = _
      rw [tzAux_self_zero]
      omega

/-- Witness for C9 at `n = 12`: `tz(144) = 4 = min(2 * tz(12), 32)`. -/
theorem trailing_zero_doubling_witness :
    (12 : Nat) < U32 ∧
    trailingZeros32 (12 * 12 % U32) = min (2 * trailingZeros32 12) 32 := by
  exact ⟨by decide, trailing_zero_doubling 12 (by decide)⟩

theorem eval_replicate_cons (i : Inst) (k : Nat) (v : Value) :
    Inst.eval (List.replicate (k + 1) i) v = Inst.eval (List.replicate k i) (v.apply i) := by
  rw [List.replicate_succ]
  rfl

theorem increment_val (v : Value) (hv : v.Valid) :
    v.increment = ⟨if v.val = 255 ∨ v.val = 4294967294 then 0 else v.val + 1⟩ := by
  obtain ⟨h1, h2, h3⟩ := hv
  have h1' : v.val < 4294967296 := h1
  have h3' : v.val ≠ 4294967295 := h3
  unfold Value.increment Value.fromU32 normalizeU32
  refine congrArg Value.mk ?_
  simp only [U32, U32MAX]
  split_ifs <;> omega

theorem decrement_val (v : Value) (hv : v.Valid) :
    v.decrement = ⟨if v.val = 0 ∨ v.val = 257 then 0 else v.val - 1⟩ := by
  obtain ⟨h1, h2, h3⟩ := hv
  have h1' : v.val < 4294967296 := h1
  have h3' : v.val ≠ 4294967295 := h3
  unfold Value.decrement Value.fromU32 normalizeU32
  refine congrArg Value.mk ?_
  simp only [U32, U32MAX]
  split_ifs <;> omega

theorem subU32_eq_iterate (k : Nat) : ∀ (v : Value), v.Valid →
    ((Builder.new v).sub k).acc = Inst.eval (List.replicate k Inst.D) v := by
  induction k with
  | zero =>
    intro v hv
    show v.subU32 0 = v
    unfold Value.subU32
    simp only
    split_ifs with h
    · omega
    · rfl
  | succ k ih =>
    intro v hv
    have h1 : v.val < 4294967296 := hv.1
    have h2 : v.val ≠ 256 := hv.2.1
    have h3 : v.val ≠ 4294967295 := hv.2.2
    show v.subU32 (k + 1) = _
    rw [eval_replicate_cons]
    show _ = Inst.eval _ v.decrement
    rw [decrement_val v hv]
    split_ifs with h0
    · have hvalid : Value.Valid ⟨0⟩ := by decide
      have := ih ⟨0⟩ hvalid
      rw [← this]
      show v.subU32 (k + 1) = Value.subU32 ⟨0⟩ k
      unfold Value.subU32
      simp only
      split_ifs <;> (first | rfl | (exact congrArg Value.mk (by omega)) | omega)
    · have hvalid : Value.Valid ⟨v.val - 1⟩ := by
        refine (Valid_mk _).mpr ⟨by omega, by omega, by omega⟩
      have := ih ⟨v.val - 1⟩ hvalid
      rw [← this]
      show v.subU32 (k + 1) = Value.subU32 ⟨v.val - 1⟩ k
      unfold Value.subU32
      simp only
      split_ifs <;> (first | rfl | (exact congrArg Value.mk (by omega)) | omega)

theorem addU32_eq_iterate (k : Nat) : ∀ (v : Value), v.Valid →
    ((v.val < 256 ∧ v.val + k ≤ 256) ∨ (256 < v.val ∧ v.val + k ≤ 4294967295)) →
    ((Builder.new v).add k).acc = Inst.eval (List.replicate k Inst.I) v := by
  induction k with
  | zero =>
    intro v hv h
    have h1 : v.val < 4294967296 := hv.1
    have h3 : v.val ≠ 4294967295 := hv.2.2
    show v.addU32 0 = v
    unfold Value.addU32
    simp only [U32MAX]
    split_ifs with hc
    · omega
    · exact congrArg Value.mk (by omega)
  | succ k ih =>
    intro v hv h
    have h1 : v.val < 4294967296 := hv.1
    have h2 : v.val ≠ 256 := hv.2.1
    have h3 : v.val ≠ 4294967295 := hv.2.2
    show v.addU32 (k + 1) = _
    rw [eval_replicate_cons]
    show _ = Inst.eval _ v.increment
    rw [increment_val v hv]
    split_ifs with h0
    · -- the increment lands exactly on a reset boundary, so k = 0
      have hk : k = 0 := by omega
      subst hk
      show v.addU32 1 = Inst.eval [] ⟨0⟩
      unfold Value.addU32
      simp only [U32MAX]
      split_ifs with hc
      · rfl
      · omega
    · have hvalid : Value.Valid ⟨v.val + 1⟩ := by
        refine (Valid_mk _).mpr ⟨by omega, by omega, by omega⟩
      have hih : (v.val + 1 < 256 ∧ v.val + 1 + k ≤ 256) ∨
          (256 < v.val + 1 ∧ v.val + 1 + k ≤ 4294967295) := by omega
      have := ih ⟨v.val + 1⟩ hvalid hih
      rw [← this]
      show v.addU32 (k + 1) = Value.addU32 ⟨v.val + 1⟩ k
      unfold Value.addU32
      simp only [U32MAX]
      split_ifs <;> (first | rfl | (exact congrArg Value.mk (by omega)) | omega)

theorem eval_append (p q : List Inst) (v : Value) :
    Inst.eval (p ++ q) v = Inst.eval q (Inst.eval p v) := by
  unfold Inst.eval
  exact List.foldl_append _ _ _ _

theorem eval_replicate_I_257 : Inst.eval (List.replicate 257 Inst.I) ⟨0⟩ = ⟨1⟩ := by
  have h255 : Inst.eval (List.replicate 255 Inst.I) ⟨0⟩ = ⟨255⟩ := by
    have h := addU32_eq_iterate 255 ⟨0⟩ (by decide) (Or.inl ⟨by decide, by decide⟩)
    rw [← h]
    decide
  have hsplit : List.replicate 257 Inst.I
      = List.replicate 255 Inst.I ++ List.replicate 2 Inst.I := by
    rw [← List.replicate_add]
  rw [hsplit, eval_append, h255]
  decide

/-- C3 counterexample: from value 0, the batch `add(257)` collapses the
tracked accumulator to 0, while 257 single-step increments pass through the
reset at 256 and continue to 1. -/
theorem builder_add_overshoot :
    ((Builder.new ⟨0⟩).add 257).acc = ⟨0⟩ ∧
    Inst.eval (List.replicate 257 Inst.I) ⟨0⟩ = ⟨1⟩ ∧
    ((Builder.new ⟨0⟩).add 257).acc ≠ Inst.eval (List.replicate 257 Inst.I) ⟨0⟩ := by
  refine ⟨by decide, eval_replicate_I_257, ?_⟩
  rw [eval_replicate_I_257]
  decide

/-- C3 (amended): `sub(k)` always advances the tracked accumulator to the
same Value as `k` single-step decrements; `add(k)` does so exactly when the
batch does not run past the first reset boundary — when the sum stays at or
below 256 (starting below 256), or at or below the all-ones pattern
(starting above 256).  Landing exactly on a boundary normalizes to zero on
both sides; overshooting it does not commute with the batch operator. -/
theorem builder_add_sub_matches_apply (v : Value) (k : Nat) (hv : v.Valid) :
    (((v.val < 256 ∧ v.val + k ≤ 256) ∨ (256 < v.val ∧ v.val + k ≤ 4294967295)) →
      ((Builder.new v).add k).acc = Inst.eval (List.replicate k Inst.I) v) ∧
    ((Builder.new v).sub k).acc = Inst.eval (List.replicate k Inst.D) v := by
  exact ⟨fun h => addU32_eq_iterate k v hv h, subU32_eq_iterate k v hv⟩

/-- Witness for C3 (amended) at `v = 250`, `k = 6` (landing exactly on the
256 reset) and the unconditional `sub` conjunct. -/
theorem builder_add_sub_matches_apply_witness :
    Value.Valid ⟨250⟩ ∧ ((250 : Nat) < 256 ∧ 250 + 6 ≤ 256) ∧
    ((Builder.new ⟨250⟩).add 6).acc = Inst.eval (List.replicate 6 Inst.I) ⟨250⟩ ∧
    ((Builder.new ⟨250⟩).sub 6).acc = Inst.eval (List.replicate 6 Inst.D) ⟨250⟩ := by
  have h := builder_add_sub_matches_apply ⟨250⟩ 6 (by decide)
  exact ⟨by decide, ⟨by decide, by decide⟩, h.1 (Or.inl ⟨by decide, by decide⟩), h.2⟩

theorem apply_val_lt (v : Value) (inst : Inst) (h : StepInst inst) :
    (v.apply inst).val < U32 := by
  rcases h with h | h | h <;> subst h
  · exact (valid_increment v).1
  · exact (valid_decrement v).1
  · exact (valid_square v).1

theorem nodup_lt_length_le (l : List Nat) (N : Nat) (hnd : l.Nodup)
    (hlt : ∀ x ∈ l, x < N) : l.length ≤ N := by
  have hcard : l.toFinset.card = l.length := List.toFinset_card_of_nodup hnd
  have hsub : l.toFinset ⊆ Finset.range N := by
    intro x hx
    exact Finset.mem_range.mpr (hlt x (List.mem_toFinset.mp hx))
  have := Finset.card_le_card hsub
  rw [hcard, Finset.card_range] at this
  exact this

theorem val_injective : Function.Injective Value.val := by
  intro a b h
  cases a
  cases b
  simpa using h

theorem visited_length_le (st : BfsState) (hnd : st.visited.Nodup)
    (hlt : ∀ v ∈ st.visited, v.val < U32) : st.visited.length ≤ U32 := by
  have hmap : (st.visited.map Value.val).Nodup := hnd.map val_injective
  have : (st.visited.map Value.val).length ≤ U32 := by
    refine nodup_lt_length_le _ _ hmap ?_
    intro x hx
    obtain ⟨v, hv, rfl⟩ := List.mem_map.mp hx
    exact hlt v hv
  simpa using this

theorem pathWalk_spec (src : Value) (queue : List BNode)
    (hroot : queue[0]? = some ⟨src, none, USIZEMAX, 0⟩)
    (hwf : ∀ (j : Nat) (nj : BNode), queue[j]? = some nj → 0 < j →
      ∃ inst prevNode, nj.inst = some inst ∧ StepInst inst ∧ nj.prev < j ∧
        queue[nj.prev]? = some prevNode ∧ nj.v = prevNode.v.apply inst ∧
        nj.len = prevNode.len + 1) :
    ∀ (j : Nat) (nj : BNode), queue[j]? = some nj →
      ∃ p, (∀ fuel acc, j < fuel → pathWalk queue fuel j acc = some (p ++ acc)) ∧
        p.length = nj.len ∧ StepPath p ∧ Inst.eval p src = nj.v := by
  intro j
  induction j using Nat.strongRecOn with
  | ind j ih =>
    intro nj hj
    rcases Nat.eq_zero_or_pos j with rfl | hpos
    · rw [hroot] at hj
      injection hj with hj
      subst hj
      refine ⟨[], ?_, rfl, by simp [StepPath], rfl⟩
      intro fuel acc hf
      cases fuel with
      | zero => omega
      | succ f =>
        simp [pathWalk, hroot]
    · obtain ⟨inst, prevNode, hinst, hstep, hlt, hprev, hv, hlen⟩ := hwf j nj hj hpos
      obtain ⟨p, hwalk, hplen, hpstep, hpeval⟩ := ih nj.prev hlt prevNode hprev
      refine ⟨p ++ [inst], ?_, ?_, ?_, ?_⟩
      · intro fuel acc hf
        cases fuel with
        | zero => omega
        | succ f =>
          have h1 : pathWalk queue (f + 1) j acc = pathWalk queue f nj.prev (inst :: acc) := by
            simp [pathWalk, hj, hinst]
          rw [h1, hwalk f (inst :: acc) (by omega)]
          rw [← List.append_cons]
      · simp [hplen, hlen]
      · intro i hi
        rcases List.mem_append.mp hi with h | h
        · exact hpstep i h
        · simp at h
          subst h
          exact hstep
      · rw [eval_append, hpeval]
        show prevNode.v.apply inst = nj.v
        exact hv.symm

theorem pathFromQueue_spec (src : Value) (queue : List BNode)
    (hroot : queue[0]? = some ⟨src, none, USIZEMAX, 0⟩)
    (hwf : ∀ (j : Nat) (nj : BNode), queue[j]? = some nj → 0 < j →
      ∃ inst prevNode, nj.inst = some inst ∧ StepInst inst ∧ nj.prev < j ∧
        queue[nj.prev]? = some prevNode ∧ nj.v = prevNode.v.apply inst ∧
        nj.len = prevNode.len + 1)
    (j : Nat) (nj : BNode) (hj : queue[j]? = some nj) :
    ∃ p, pathFromQueue queue j = some p ∧
      p.length = nj.len ∧ StepPath p ∧ Inst.eval p src = nj.v := by
  obtain ⟨p, hwalk, hplen, hpstep, hpeval⟩ := pathWalk_spec src queue hroot hwf j nj hj
  obtain ⟨hjlt, -⟩ := List.getElem?_eq_some.mp hj
  refine ⟨p, ?_, hplen, hpstep, hpeval⟩
  unfold pathFromQueue
  rw [hwalk (queue.length + 1) [] (by omega)]
  simp

theorem bfsPushChild_fields (tgt : Value) (i : Nat) (node : BNode) (st : BfsState)
    (inst : Inst) :
    (bfsPushChild tgt i node st inst).index = st.index ∧
    (bfsPushChild tgt i node st inst).trace = st.trace ∧
    (bfsPushChild tgt i node st inst).zeroIdx = st.zeroIdx := by
  simp only [bfsPushChild]
  split_ifs <;> exact ⟨rfl, rfl, rfl⟩

theorem bfsPushChild_cases (tgt : Value) (i : Nat) (node : BNode) (st : BfsState)
    (inst : Inst) :
    (node.v.apply inst ∈ st.visited ∧ bfsPushChild tgt i node st inst = st) ∨
    (node.v.apply inst ∉ st.visited ∧
      (bfsPushChild tgt i node st inst).queue
        = st.queue ++ [⟨node.v.apply inst, some inst, i, node.len + 1⟩] ∧
      (bfsPushChild tgt i node st inst).visited
        = node.v.apply inst :: st.visited) := by
  simp only [bfsPushChild]
  split_ifs with h
  · exact Or.inl ⟨h, rfl⟩
  · exact Or.inr ⟨h, rfl, rfl⟩

theorem concat_getElem?_split (q : List BNode) (c : BNode) (j : Nat) (nj : BNode)
    (hj : (q ++ [c])[j]? = some nj) :
    (j < q.length ∧ q[j]? = some nj) ∨ (j = q.length ∧ nj = c) := by
  obtain ⟨hlt, -⟩ := List.getElem?_eq_some.mp hj
  simp only [List.length_append, List.length_cons, List.length_nil] at hlt
  rcases Nat.lt_or_ge j q.length with h | h
  · exact Or.inl ⟨h, by rwa [List.getElem?_append_left h] at hj⟩
  · have hje : j = q.length := by omega
    subst hje
    rw [List.getElem?_concat_length] at hj
    injection hj with hj
    exact Or.inr ⟨rfl, hj.symm⟩

theorem mid_push (src tgt : Value) (bound i : Nat) (node : BNode) (done : List Inst)
    (st : BfsState) (inst : Inst) (hstep : StepInst inst)
    (hm : BfsMidInv src tgt bound i node done st) :
    BfsMidInv src tgt bound i node (inst :: done) (bfsPushChild tgt i node st inst) := by
  obtain ⟨hroot, hidx, hpar, hwf, hsort, hvis, hexp, hnt, hnd, hlt, hcount, htr, hall,
    hhand⟩ := hm
  have hfields := bfsPushChild_fields tgt i node st inst
  rcases bfsPushChild_cases tgt i node st inst with ⟨hmem, heq⟩ | ⟨hmem, hq, hv⟩
  · rw [heq]
    refine ⟨hroot, hidx, hpar, hwf, hsort, hvis, hexp, hnt, hnd, hlt, hcount, htr,
      hall, ?_⟩
    intro inst' hinst'
    rcases List.mem_cons.mp hinst' with rfl | h
    · obtain ⟨j, nj, hjpos, hj, hjv⟩ := (hvis _).mp hmem
      exact ⟨j, nj, hj, hjv, hall j nj hj⟩
    · exact hhand inst' h
  · have hilt : i < st.queue.length := (List.getElem?_eq_some.mp hpar).1
    have h0lt : 0 < st.queue.length := by omega
    set c : BNode := ⟨node.v.apply inst, some inst, i, node.len + 1⟩ with hc
    set st' := bfsPushChild tgt i node st inst with hst'
    have hkeep : ∀ j, j < st.queue.length → st'.queue[j]? = st.queue[j]? := by
      intro j hjl
      rw [hq]
      exact List.getElem?_append_left hjl
    have hnew : st'.queue[st.queue.length]? = some c := by
      rw [hq]
      exact List.getElem?_concat_length _ _
    have hsplit : ∀ (j : Nat) (nj : BNode), st'.queue[j]? = some nj →
        (j < st.queue.length ∧ st.queue[j]? = some nj) ∨
        (j = st.queue.length ∧ nj = c) := by
      intro j nj hj
      rw [hq] at hj
      exact concat_getElem?_split _ _ _ _ hj
    have hlift : ∀ (j : Nat) (nj : BNode), st.queue[j]? = some nj →
        st'.queue[j]? = some nj := by
      intro j nj hj
      rw [hkeep j (List.getElem?_eq_some.mp hj).1]
      exact hj
    refine ⟨?_, ?_, ?_, ?_, ?_, ?_, ?_, ?_, ?_, ?_, ?_, ?_, ?_, ?_⟩
    · rw [hkeep 0 h0lt]
      exact hroot
    · rw [hfields.1, hidx]
    · rw [hkeep i hilt]
      exact hpar
    · intro j nj hj hjpos
      rcases hsplit j nj hj with ⟨hjl, hjo⟩ | ⟨hje, rfl⟩
      · obtain ⟨inst', pn, h1, h2, h3, h4, h5, h6, h7⟩ := hwf j nj hjo hjpos
        exact ⟨inst', pn, h1, h2, h3, h4, hlift _ _ h5, h6, h7⟩
      · refine ⟨inst, node, rfl, hstep, ?_, ?_, ?_, rfl, rfl⟩
        · show i < j
          omega
        · show i ≤ i
          omega
        · show st'.queue[i]? = some node
          rw [hkeep i hilt]
          exact hpar
    · intro j k nj nk hj hk hjk
      rcases hsplit j nj hj with ⟨hjl, hjo⟩ | ⟨hje, rfl⟩
      · rcases hsplit k nk hk with ⟨hkl, hko⟩ | ⟨hke, rfl⟩
        · exact hsort j k nj nk hjo hko hjk
        · exact hall j nj hjo
      · rcases hsplit k nk hk with ⟨hkl, hko⟩ | ⟨hke, rfl⟩
        · omega
        · omega
    · intro v
      rw [hv]
      constructor
      · intro hmv
        rcases List.mem_cons.mp hmv with rfl | h
        · exact ⟨st.queue.length, c, h0lt, hnew, rfl⟩
        · obtain ⟨j, nj, hjpos, hj, hjv⟩ := (hvis v).mp h
          exact ⟨j, nj, hjpos, hlift _ _ hj, hjv⟩
      · intro hex
        obtain ⟨j, nj, hjpos, hj, hjv⟩ := hex
        rcases hsplit j nj hj with ⟨hjl, hjo⟩ | ⟨hje, rfl⟩
        · exact List.mem_cons_of_mem _ ((hvis v).mpr ⟨j, nj, hjpos, hjo, hjv⟩)
        · rw [← hjv]
          exact List.mem_cons_self _ _
    · intro j nj hj hjlt hjb inst' hinst'
      have hjl : j < st.queue.length := by omega
      have hjo : st.queue[j]? = some nj := by
        rw [← hkeep j hjl]
        exact hj
      obtain ⟨k, cnode, hk, hkv, hkl⟩ := hexp j nj hjo hjlt hjb inst' hinst'
      exact ⟨k, cnode, hlift _ _ hk, hkv, hkl⟩
    · intro j nj hj hjlt
      have hjl : j < st.queue.length := by omega
      have hjo : st.queue[j]? = some nj := by
        rw [← hkeep j hjl]
        exact hj
      exact hnt j nj hjo hjlt
    · rw [hv]
      exact List.nodup_cons.mpr ⟨hmem, hnd⟩
    · rw [hv]
      intro v hv'
      rcases List.mem_cons.mp hv' with rfl | h
      · exact apply_val_lt node.v inst hstep
      · exact hlt v h
    · rw [hv]
      have : st'.queue.length = st.queue.length + 1 := by
        rw [hq]
        simp
      rw [this, hcount]
      simp
    · rw [hfields.2.1]
      exact htr
    · intro j nj hj
      rcases hsplit j nj hj with ⟨hjl, hjo⟩ | ⟨hje, rfl⟩
      · exact hall j nj hjo
      · show node.len + 1 ≤ node.len + 1
        omega
    · intro inst' hinst'
      rcases List.mem_cons.mp hinst' with rfl | h
      · exact ⟨st.queue.length, c, hnew, rfl, le_refl _⟩
      · obtain ⟨k, cnode, hk, hkv, hkl⟩ := hhand inst' h
        exact ⟨k, cnode, hlift _ _ hk, hkv, hkl⟩

theorem inv_all_le (src tgt : Value) (bound : Nat) (st : BfsState) (node : BNode)
    (hInv : BfsInv src tgt bound st) (hpar : st.queue[st.index]? = some node) :
    ∀ (j : Nat) (nj : BNode), st.queue[j]? = some nj → nj.len ≤ node.len + 1 := by
  intro j nj hj
  rcases le_or_lt j st.index with hle | hgt
  · have := hInv.sorted j st.index nj node hj hpar hle
    omega
  · have hjpos : 0 < j := by omega
    obtain ⟨inst, pn, h1, h2, h3, h4, h5, h6, h7⟩ := hInv.wf j nj hj hjpos
    have := hInv.sorted nj.prev st.index pn node h5 hpar (by omega)
    omega

theorem mid_entry (src tgt : Value) (bound : Nat) (st : BfsState) (node : BNode)
    (hInv : BfsInv src tgt bound st) (hpar : st.queue[st.index]? = some node)
    (hb : node.len < bound) (z : Option Nat) :
    BfsMidInv src tgt bound st.index node []
      { st with zeroIdx := z, trace := node.len :: st.trace } := by
  refine ⟨hInv.root, rfl, hpar, ?_, hInv.sorted, hInv.visited_iff, hInv.expanded,
    hInv.not_target, hInv.visited_nodup, hInv.visited_lt, hInv.count, ?_,
    inv_all_le src tgt bound st node hInv hpar, ?_⟩
  · intro j nj hj hjpos
    obtain ⟨inst, pn, h1, h2, h3, h4, h5, h6, h7⟩ := hInv.wf j nj hj hjpos
    exact ⟨inst, pn, h1, h2, h3, by show nj.prev ≤ st.index; omega, h5, h6, h7⟩
  · intro L hL
    rcases List.mem_cons.mp hL with rfl | h
    · exact hb
    · exact hInv.trace_lt L h
  · intro inst hinst
    cases hinst

theorem mid_exit (src tgt : Value) (bound i : Nat) (node : BNode) (done : List Inst)
    (st : BfsState) (hm : BfsMidInv src tgt bound i node done st)
    (hall : ∀ inst, StepInst inst → inst ∈ done) (hne : node.v ≠ tgt) :
    BfsInv src tgt bound { st with index := i + 1 } := by
  obtain ⟨hroot, hidx, hpar, hwf, hsort, hvis, hexp, hnt, hnd, hlt, hcount, htr, hallle,
    hhand⟩ := hm
  have hilt : i < st.queue.length := (List.getElem?_eq_some.mp hpar).1
  refine ⟨hroot, ?_, ?_, hsort, hvis, ?_, ?_, hnd, hlt, hcount, htr⟩
  · show i + 1 ≤ st.queue.length
    omega
  · intro j nj hj hjpos
    obtain ⟨inst, pn, h1, h2, h3, h4, h5, h6, h7⟩ := hwf j nj hj hjpos
    exact ⟨inst, pn, h1, h2, h3, by show nj.prev < i + 1; omega, h5, h6, h7⟩
  · intro j nj hj hjlt hjb inst hinst
    rcases Nat.lt_or_ge j i with hji | hji
    · exact hexp j nj hj hji hjb inst hinst
    · have hji' : j = i := by
        have : j < i + 1 := hjlt
        omega
      subst hji'
      have hnj : nj = node := by
        rw [hpar] at hj
        injection hj with h
        exact h.symm
      subst hnj
      exact hhand inst (hall inst hinst)
  · intro j nj hj hjlt
    rcases Nat.lt_or_ge j i with hji | hji
    · exact hnt j nj hj hji
    · have hji' : j = i := by
        have : j < i + 1 := hjlt
        omega
      subst hji'
      have hnj : nj = node := by
        rw [hpar] at hj
        injection hj with h
        exact h.symm
      subst hnj
      exact hne

theorem step_no_expand (src tgt : Value) (bound : Nat) (st : BfsState) (node : BNode)
    (hInv : BfsInv src tgt bound st) (hpar : st.queue[st.index]? = some node)
    (hb : ¬ node.len < bound) (hne : node.v ≠ tgt) (z : Option Nat) :
    BfsInv src tgt bound { st with zeroIdx := z, index := st.index + 1 } := by
  have hilt : st.index < st.queue.length := (List.getElem?_eq_some.mp hpar).1
  refine ⟨hInv.root, ?_, ?_, hInv.sorted, hInv.visited_iff, ?_, ?_, hInv.visited_nodup,
    hInv.visited_lt, hInv.count, hInv.trace_lt⟩
  · show st.index + 1 ≤ st.queue.length
    omega
  · intro j nj hj hjpos
    obtain ⟨inst, pn, h1, h2, h3, h4, h5, h6, h7⟩ := hInv.wf j nj hj hjpos
    exact ⟨inst, pn, h1, h2, h3, by show nj.prev < st.index + 1; omega, h5, h6, h7⟩
  · intro j nj hj hjlt hjb inst hinst
    rcases Nat.lt_or_ge j st.index with hji | hji
    · exact hInv.expanded j nj hj hji hjb inst hinst
    · have hji' : j = st.index := by
        have : j < st.index + 1 := hjlt
        omega
      subst hji'
      have hnj : nj = node := by
        rw [hpar] at hj
        injection hj with h
        exact h.symm
      subst hnj
      exact absurd hjb hb
  · intro j nj hj hjlt
    rcases Nat.lt_or_ge j st.index with hji | hji
    · exact hInv.not_target j nj hj hji
    · have hji' : j = st.index := by
        have : j < st.index + 1 := hjlt
        omega
      subst hji'
      have hnj : nj = node := by
        rw [hpar] at hj
        injection hj with h
        exact h.symm
      subst hnj
      exact hne

theorem eval_take_succ (P : List Inst) (src : Value) (i : Nat) (h : i < P.length) :
    Inst.eval (P.take (i + 1)) src = (Inst.eval (P.take i) src).apply P[i] := by
  have hsplit : P.take (i + 1) = P.take i ++ [P[i]] := by
    rw [List.take_succ]
    congr 1
    rw [List.getElem?_eq_getElem h]
    rfl
  rw [hsplit, eval_append]
  rfl

theorem bfs_climb (src tgt : Value) (bound : Nat) (st : BfsState)
    (hInv : BfsInv src tgt bound st) (P : List Inst) (hP : StepPath P)
    (hdb : P.length ≤ bound)
    (hblock : ∀ (k : Nat) (ck : BNode), st.queue[k]? = some ck →
      ck.len ≤ P.length → st.index ≤ k → False)
    (hidx : 0 < st.index) :
    ∀ i, i < P.length → ∃ (j : Nat) (nj : BNode), j < st.index ∧
      st.queue[j]? = some nj ∧ nj.v = Inst.eval (P.take i) src ∧ nj.len ≤ i := by
  intro i
  induction i with
  | zero =>
    intro hi
    exact ⟨0, ⟨src, none, USIZEMAX, 0⟩, hidx, hInv.root, rfl, Nat.le_refl 0⟩
  | succ i ih =>
    intro hi
    obtain ⟨j, nj, hjlt, hj, hjv, hjlen⟩ := ih (by omega)
    have hjb : nj.len < bound := by omega
    have hmem : P[i] ∈ P := List.getElem_mem _
    obtain ⟨k, ck, hk, hkv, hkl⟩ :=
      hInv.expanded j nj hj hjlt hjb P[i] (hP _ hmem)
    have hkidx : k < st.index := by
      by_contra hc
      exact hblock k ck hk (by omega) (by omega)
    refine ⟨k, ck, hkidx, hk, ?_, by omega⟩
    rw [hkv, hjv, eval_take_succ P src i (by omega)]

theorem bfsLoopNext_inv (src tgt : Value) (bound : Nat) (st : BfsState) (node : BNode)
    (hInv : BfsInv src tgt bound st) (hq : st.queue[st.index]? = some node)
    (hne : node.v ≠ tgt) :
    BfsInv src tgt bound (bfsLoopNext tgt bound st node) ∧
    (bfsLoopNext tgt bound st node).index = st.index + 1 ∧
    (bfsLoopNext tgt bound st node).queue.length = (bfsLoopNext tgt bound st node).visited.length + 1 := by
  have hmain : BfsInv src tgt bound (bfsLoopNext tgt bound st node) ∧
      (bfsLoopNext tgt bound st node).index = st.index + 1 := by
    unfold bfsLoopNext
    by_cases hb : node.len < bound
    · simp only [if_pos hb]
      by_cases hcz : node.v.val = 0 ∧ st.zeroIdx = none
      · simp only [if_pos hcz]
        have hmid := mid_entry src tgt bound st node hInv hq hb (some st.index)
        have h1 := mid_push src tgt bound st.index node [] _ Inst.I (Or.inl rfl) hmid
        have h2 := mid_push src tgt bound st.index node [Inst.I] _ Inst.D
          (Or.inr (Or.inl rfl)) h1
        have h3 := mid_push src tgt bound st.index node [Inst.D, Inst.I] _ Inst.S
          (Or.inr (Or.inr rfl)) h2
        have hexit := mid_exit src tgt bound st.index node [Inst.S, Inst.D, Inst.I] _ h3
          (by
            intro inst hinst
            rcases hinst with rfl | rfl | rfl
            · exact List.mem_cons_of_mem _ (List.mem_cons_of_mem _ (List.mem_cons_self _ _))
            · exact List.mem_cons_of_mem _ (List.mem_cons_self _ _)
            · exact List.mem_cons_self _ _)
          hne
        exact ⟨hexit, trivial⟩
      · simp only [if_neg hcz]
        have hmid := mid_entry src tgt bound st node hInv hq hb st.zeroIdx
        have h1 := mid_push src tgt bound st.index node [] _ Inst.I (Or.inl rfl) hmid
        have h2 := mid_push src tgt bound st.index node [Inst.I] _ Inst.D
          (Or.inr (Or.inl rfl)) h1
        have h3 := mid_push src tgt bound st.index node [Inst.D, Inst.I] _ Inst.S
          (Or.inr (Or.inr rfl)) h2
        have hexit := mid_exit src tgt bound st.index node [Inst.S, Inst.D, Inst.I] _ h3
          (by
            intro inst hinst
            rcases hinst with rfl | rfl | rfl
            · exact List.mem_cons_of_mem _ (List.mem_cons_of_mem _ (List.mem_cons_self _ _))
            · exact List.mem_cons_of_mem _ (List.mem_cons_self _ _)
            · exact List.mem_cons_self _ _)
          hne
        exact ⟨hexit, trivial⟩
    · simp only [if_neg hb]
      by_cases hcz : node.v.val = 0 ∧ st.zeroIdx = none
      · simp only [if_pos hcz]
        exact ⟨step_no_expand src tgt bound st node hInv hq hb hne (some st.index), trivial⟩
      · simp only [if_neg hcz]
        have := step_no_expand src tgt bound st node hInv hq hb hne st.zeroIdx
        exact ⟨by
          refine ⟨this.root, this.index_le, this.wf, this.sorted, this.visited_iff,
            this.expanded, this.not_target, this.visited_nodup, this.visited_lt,
            this.count, this.trace_lt⟩, trivial⟩
  exact ⟨hmain.1, hmain.2, hmain.1.count⟩

theorem bfsLoop_finds (src tgt : Value) (bound : Nat) (P : List Inst)
    (hP : StepPath P) (hPe : Inst.eval P src = tgt)
    (hmin : ∀ q, StepPath q → Inst.eval q src = tgt → P.length ≤ q.length)
    (hdb : P.length ≤ bound) :
    ∀ (fuel : Nat) (st : BfsState), BfsInv src tgt bound st →
      U32 + 1 < fuel + st.index →
      ∃ p trace, bfsLoop tgt bound fuel st = some ((some p, true), trace) ∧
        p.length = P.length ∧ StepPath p ∧ Inst.eval p src = tgt ∧
        ∀ L ∈ trace, L < bound := by
  intro fuel
  induction fuel with
  | zero =>
    intro st hInv hfuel
    exfalso
    have h1 : st.index ≤ st.queue.length := hInv.index_le
    have h2 : st.queue.length = st.visited.length + 1 := hInv.count
    have h3 : st.visited.length ≤ U32 :=
      visited_length_le st hInv.visited_nodup hInv.visited_lt
    omega
  | succ fuel ih =>
    intro st hInv hfuel
    cases hq : st.queue[st.index]? with
    | none =>
      exfalso
      have hlen_le : st.queue.length ≤ st.index := List.getElem?_eq_none_iff.mp hq
      have hroot0 : 0 < st.queue.length := (List.getElem?_eq_some.mp hInv.root).1
      have hidx0 : 0 < st.index := by omega
      have hblock : ∀ (k : Nat) (ck : BNode), st.queue[k]? = some ck →
          ck.len ≤ P.length → st.index ≤ k → False := by
        intro k ck hk _ hik
        have := (List.getElem?_eq_some.mp hk).1
        omega
      rcases Nat.eq_zero_or_pos P.length with hd0 | hdpos
      · have hPnil : P = [] := List.length_eq_zero.mp hd0
        have hst : src = tgt := by rw [hPnil] at hPe; exact hPe
        exact (hInv.not_target 0 _ hInv.root hidx0) hst
      · obtain ⟨j, nj, hjlt, hj, hjv, hjlen⟩ :=
          bfs_climb src tgt bound st hInv P hP hdb hblock hidx0 (P.length - 1)
            (by omega)
        have hjb : nj.len < bound := by omega
        have hmem : P[P.length - 1] ∈ P := List.getElem_mem _
        obtain ⟨k, ck, hk, hkv, hkl⟩ := hInv.expanded j nj hj hjlt hjb _ (hP _ hmem)
        have hckv : ck.v = tgt := by
          rw [hkv, hjv, ← eval_take_succ P src (P.length - 1) (by omega)]
          have hpl : P.length - 1 + 1 = P.length := by omega
          rw [hpl, List.take_length, hPe]
        have hkidx : k < st.index := by
          by_contra hc
          exact hblock k ck hk (by omega) (by omega)
        exact hInv.not_target k ck hk hkidx hckv
    | some node =>
      have hwf' : ∀ (j : Nat) (nj : BNode), st.queue[j]? = some nj → 0 < j →
          ∃ inst prevNode, nj.inst = some inst ∧ StepInst inst ∧ nj.prev < j ∧
            st.queue[nj.prev]? = some prevNode ∧ nj.v = prevNode.v.apply inst ∧
            nj.len = prevNode.len + 1 := by
        intro j nj hj hjpos
        obtain ⟨inst, pn, h1, h2, h3, h4, h5, h6, h7⟩ := hInv.wf j nj hj hjpos
        exact ⟨inst, pn, h1, h2, h3, h5, h6, h7⟩
      by_cases hvt : node.v = tgt
      · obtain ⟨p, hpq, hplen, hpstep, hpeval⟩ :=
          pathFromQueue_spec src st.queue hInv.root hwf' st.index node hq
        have hpe : Inst.eval p src = tgt := by rw [hpeval, hvt]
        have hge : P.length ≤ node.len := by
          have := hmin p hpstep hpe
          omega
        have hle : node.len ≤ P.length := by
          by_contra hgt
          push_neg at hgt
          have hblock : ∀ (k : Nat) (ck : BNode), st.queue[k]? = some ck →
              ck.len ≤ P.length → st.index ≤ k → False := by
            intro k ck hk hckl hik
            have := hInv.sorted st.index k node ck hq hk hik
            omega
          have hidx0 : 0 < st.index := by
            by_contra hc
            push_neg at hc
            have hie : st.index = 0 := by omega
            rw [hie, hInv.root] at hq
            injection hq with hq
            have hn0 : node.len = 0 := by rw [← hq]
            omega
          rcases Nat.eq_zero_or_pos P.length with hd0 | hdpos
          · have hPnil : P = [] := List.length_eq_zero.mp hd0
            have hst : src = tgt := by rw [hPnil] at hPe; exact hPe
            exact (hInv.not_target 0 _ hInv.root hidx0) hst
          · obtain ⟨j, nj, hjlt, hj, hjv, hjlen⟩ :=
              bfs_climb src tgt bound st hInv P hP hdb hblock hidx0 (P.length - 1)
                (by omega)
            have hjb : nj.len < bound := by omega
            have hmem : P[P.length - 1] ∈ P := List.getElem_mem _
            obtain ⟨k, ck, hk, hkv, hkl⟩ :=
              hInv.expanded j nj hj hjlt hjb _ (hP _ hmem)
            have hckv : ck.v = tgt := by
              rw [hkv, hjv, ← eval_take_succ P src (P.length - 1) (by omega)]
              have hpl : P.length - 1 + 1 = P.length := by omega
              rw [hpl, List.take_length, hPe]
            have hkidx : k < st.index := by
              by_contra hc
              exact hblock k ck hk (by omega) (by omega)
            exact hInv.not_target k ck hk hkidx hckv
        refine ⟨p, st.trace, ?_, by omega, hpstep, hpe, hInv.trace_lt⟩
        have hred : bfsLoop tgt bound (fuel + 1) st
            = (pathFromQueue st.queue st.index).map
                (fun p => ((some p, true), st.trace)) := by
          simp only [bfsLoop, hq, if_pos hvt]
        rw [hred, hpq]
        rfl
      · obtain ⟨hInv2, hidx2, -⟩ := bfsLoopNext_inv src tgt bound st node hInv hq hvt
        obtain ⟨p, trace, hrun, h1, h2, h3, h4⟩ :=
          ih (bfsLoopNext tgt bound st node) hInv2 (by rw [hidx2]; omega)
        refine ⟨p, trace, ?_, h1, h2, h3, h4⟩
        have hred : bfsLoop tgt bound (fuel + 1) st
            = bfsLoop tgt bound fuel (bfsLoopNext tgt bound st node) := by
          simp only [bfsLoop, hq, if_neg hvt]
        rw [hred, hrun]

theorem bfsInit_inv (src tgt : Value) (bound : Nat) :
    BfsInv src tgt bound (bfsInit src) := by
  refine ⟨rfl, by show (0 : Nat) ≤ 1; omega, ?_, ?_, ?_, ?_, ?_, List.nodup_nil, ?_,
    rfl, ?_⟩
  · intro j nj hj hjpos
    have := (List.getElem?_eq_some.mp hj).1
    simp only [bfsInit, List.length_cons, List.length_nil] at this
    omega
  · intro j k nj nk hj hk hjk
    have h1 := (List.getElem?_eq_some.mp hj).1
    have h2 := (List.getElem?_eq_some.mp hk).1
    simp only [bfsInit, List.length_cons, List.length_nil] at h1 h2
    have hj0 : j = 0 := by omega
    have hk0 : k = 0 := by omega
    subst hj0
    subst hk0
    rw [hj] at hk
    injection hk with hk
    rw [hk]
  · intro v
    constructor
    · intro hv
      cases hv
    · intro hex
      obtain ⟨j, nj, hjpos, hj, -⟩ := hex
      have := (List.getElem?_eq_some.mp hj).1
      simp only [bfsInit, List.length_cons, List.length_nil] at this
      omega
  · intro j nj hj hjlt
    exact absurd hjlt (by show ¬ j < 0; omega)
  · intro j nj hj hjlt
    exact absurd hjlt (by show ¬ j < 0; omega)
  · intro v hv
    cases hv
  · intro L hL
    cases hL

/-- C2: BFS optimality.  For every pair whose true shortest path length in
the step graph (edges `i`, `d`, `s`, with normalization baked into `apply`)
is at most the configured bound, `BfsEncoder::encode` returns a path of
exactly that minimum length marked `is_optimal = true`, and no node whose
path length has reached the bound is expanded (every recorded expansion
length stays below the bound). -/
theorem bfs_encode_optimal (src tgt : Value) (bound : Nat) (q : List Inst)
    (hq : StepPath q) (he : Inst.eval q src = tgt) (hlen : q.length ≤ bound) :
    ∃ p trace, bfsEncodeT src tgt bound = some ((some p, true), trace) ∧
      StepPath p ∧ Inst.eval p src = tgt ∧
      (∀ r, StepPath r → Inst.eval r src = tgt → p.length ≤ r.length) ∧
      ∀ L ∈ trace, L < bound := by
  classical
  have hSne : {n | ∃ p, StepPath p ∧ p.length = n ∧ Inst.eval p src = tgt}.Nonempty :=
    ⟨q.length, q, hq, rfl, he⟩
  obtain ⟨P, hP, hPlen, hPe⟩ := Nat.sInf_mem hSne
  have hmin : ∀ r, StepPath r → Inst.eval r src = tgt → P.length ≤ r.length := by
    intro r hr hre
    rw [hPlen]
    exact Nat.sInf_le ⟨r, hr, rfl, hre⟩
  have hdb : P.length ≤ bound := by
    have hqmem : q.length ∈
        {n | ∃ p, StepPath p ∧ p.length = n ∧ Inst.eval p src = tgt} :=
      ⟨q, hq, rfl, he⟩
    have := Nat.sInf_le hqmem
    omega
  obtain ⟨p, trace, hrun, hplen, hpstep, hpe, htr⟩ :=
    bfsLoop_finds src tgt bound P hP hPe hmin hdb BFSFUEL (bfsInit src)
      (bfsInit_inv src tgt bound) (by show U32 + 1 < U32 + 2 + 0; omega)
  refine ⟨p, trace, hrun, hpstep, hpe, ?_, htr⟩
  intro r hr hre
  rw [hplen]
  exact hmin r hr hre

/-- Witness for C2 at `from = 0`, `to = 4`, bound 16, with the length-3 path
`iis` discharging the reachability hypothesis. -/
theorem bfs_encode_optimal_witness :
    (StepPath [Inst.I, Inst.I, Inst.S] ∧
      Inst.eval [Inst.I, Inst.I, Inst.S] ⟨0⟩ = ⟨4⟩ ∧
      ([Inst.I, Inst.I, Inst.S] : List Inst).length ≤ 16) ∧
    (∃ p trace, bfsEncodeT ⟨0⟩ ⟨4⟩ 16 = some ((some p, true), trace) ∧
      StepPath p ∧ Inst.eval p ⟨0⟩ = ⟨4⟩ ∧
      (∀ r, StepPath r → Inst.eval r ⟨0⟩ = ⟨4⟩ → p.length ≤ r.length) ∧
      ∀ L ∈ trace, L < 16) :=
  ⟨⟨by decide, by decide, by decide⟩,
    bfs_encode_optimal ⟨0⟩ ⟨4⟩ 16 [Inst.I, Inst.I, Inst.S] (by decide) (by decide)
      (by decide)⟩
